import Mathlib

/-!
Verification of the event-timeline scheduler in
`frescobaldi_app/midiplayer.py` (classes `Player`, `Event` and the
function `make_event_list`).

The Python code is shallowly embedded below: Python ints become `Int`,
lists become `List`, the mutable `Player` object becomes an explicit
`PlayerState` record, and operations that can raise (`IndexError`,
`NameError`) return `Except String`.  Opaque MIDI payloads are modelled
by `Nat`; the float `_tempo_factor` (never used arithmetically by the
core) is modelled by `Rat`.
-/

namespace Midiplayer

/-- Embedding of the Python class `Event` (midiplayer.py lines 207-221).
`midi` is `None` or an opaque payload, `time` is `None` or `True`
(a `Bool` here), `beat` is `None` or a 4-tuple
(measnum, beat, num, den). -/
structure Event where
  midi : Option Nat
  time : Bool
  beat : Option (Int × Int × Int × Int)
deriving DecidableEq, Repr

/-- Embedding of `Event.__init__`: all three attributes unset. -/
def Event.init : Event := ⟨none, false, none⟩

/-- The data consumed from the `Song` collaborator (midisong.py):
`music` is a sequence of (timestamp, midi payload) pairs, `length` the
total duration, `beats` a sequence of
(timestamp, measnum, beat, num, den) tuples. -/
structure Song where
  music : List (Int × Nat)
  length : Int
  beats : List (Int × Int × Int × Int × Int)

/-- The mutable state of a `Player` object: `_events` (the built
timeline), `_position`, `_tempo_factor`. -/
structure PlayerState where
  events : List (Int × Event)
  position : Nat
  tempo_factor : Rat
deriving DecidableEq, Repr

/-- The observable calls a `Player` makes on its subclass hooks:
`midi_event`, `time_event`, `beat_event`, and `finish` (which calls
`stop`). -/
inductive Notification where
  | midi (payload : Nat)
  | timeUpdate (msec : Int)
  | beatMark (measnum beat num den : Int)
  | finished
deriving DecidableEq, Repr

/-! ### The timeline builder `make_event_list` -/

/-- Fuel-driven core of Python `range(start, stop, step)`.  The fuel is
always chosen `≥` the number of produced elements, so the `0` case is
never the reason the list ends. -/
def pyRangeAux (stop step : Int) : Nat → Int → List Int
  | 0, _ => []
  | fuel + 1, start =>
    if 0 < step then
      if start < stop then start :: pyRangeAux stop step fuel (start + step) else []
    else if step < 0 then
      if stop < start then start :: pyRangeAux stop step fuel (start + step) else []
    else []

/-- Python `range(start, stop, step)` for `step ≠ 0`.
`(stop - start).natAbs` elements of fuel suffice because `|step| ≥ 1`. -/
def pyRange (start stop step : Int) : List Int :=
  pyRangeAux stop step (stop - start).natAbs start

/-- Modelling of `d[t].attr = x` on a `collections.defaultdict(Event)`, modelled on an
association list: modify the entry at key `t` if present, otherwise
create it from `Event.init` and modify that. -/
def dUpdate (d : List (Int × Event)) (t : Int) (f : Event → Event) :
    List (Int × Event) :=
  match d with
  | [] => [(t, f Event.init)]
  | (k, v) :: rest => if k = t then (k, f v) :: rest else (k, v) :: dUpdate rest t f

/-- Reading `d[t]` without inserting (used only in proofs). -/
def dLookup (d : List (Int × Event)) (t : Int) : Option Event :=
  match d with
  | [] => none
  | (k, v) :: rest => if k = t then some v else dLookup rest t

/-- Comparison of timeline entries by timestamp, used to model
`sorted(d)` over the dict keys. -/
def keyLE (p q : Int × Event) : Prop := p.1 ≤ q.1

instance : DecidableRel keyLE := fun p q => Int.decLe p.1 q.1

instance : IsTotal (Int × Event) keyLE := ⟨fun p q => Int.le_total p.1 q.1⟩

instance : IsTrans (Int × Event) keyLE := ⟨fun _ _ _ h h2 => le_trans h h2⟩

/-- The accumulation phase of `make_event_list` (midiplayer.py lines
244-255): the defaultdict after the three loops have written the MIDI
payloads, the periodic time ticks, and the beat markers.  `time = none`
or `some 0` is falsy in Python (`if time:`), as is `beat = false`. -/
def build_dict (song : Song) (time : Option Int) (beat : Bool) :
    List (Int × Event) :=
  let d0 : List (Int × Event) :=
    song.music.foldl (fun d p => dUpdate d p.1 (fun e => { e with midi := some p.2 })) []
  let d1 : List (Int × Event) :=
    match time with
    | none => d0
    | some ti =>
      if ti = 0 then d0
      else
        (pyRange 0 (song.length + 1) ti).foldl
          (fun d t => dUpdate d t (fun e => { e with time := true })) d0
  if beat then
    song.beats.foldl
      (fun d p => dUpdate d p.1 (fun e => { e with beat := some p.2 })) d1
  else d1

/-- Embedding of `make_event_list(song, time, beat)` (lines 234-257):
accumulate the three event sources into a defaultdict keyed by
timestamp, then emit `(t, d[t])` for the sorted keys (line 257). -/
def make_event_list (song : Song) (time : Option Int) (beat : Bool) :
    List (Int × Event) :=
  List.insertionSort keyLE (build_dict song time beat)

/-! ### The cursor operations of `Player` -/

/-- Embedding of `Player.total_time` (lines 74-78): `self._events[-1][0]` when the
list is non-empty, else 0. -/
def total_time (s : PlayerState) : Int :=
  match s.events.getLast? with
  | some te => te.1
  | none => 0

/-- Embedding of `Player.current_time` (lines 80-88): `pos = self._position - 1`
(Python int subtraction, so `-1` at position 0); return
`self._events[pos][0]` if `pos >= 0` else 0.  Indexing can raise if the
position is past the end, hence `Except`. -/
def current_time (s : PlayerState) : Except String Int :=
  if (s.position : Int) - 1 ≥ 0 then
    match s.events.get? (s.position - 1) with
    | some te => Except.ok te.1
    | none => Except.error "IndexError: list index out of range"
  else Except.ok 0

/-- Embedding of `Player.set_position` (lines 144-154): stores the position; the base
implementation ignores the time offset. -/
def set_position (s : PlayerState) (position : Nat) (_time_offset : Int) :
    PlayerState :=
  { s with position := position }

/-- The `while pos < end` bisection loop inside `Player.seek` (lines
113-119), with explicit fuel.  The fuel is always called with
`end - pos` (the gap strictly decreases each iteration), so the `0`
case only returns `pos` when the loop guard already fails.  Inside the
loop `mid < end ≤ length`, so the `getD` default is never read. -/
def bisectLoop (ts : List Int) (time : Int) : Nat → Nat → Nat → Nat
  | 0, pos, _ => pos
  | fuel + 1, pos, e =>
    if pos < e then
      if time > ts.getD ((pos + e) / 2) 0 then
        bisectLoop ts time fuel ((pos + e) / 2 + 1) e
      else
        bisectLoop ts time fuel pos ((pos + e) / 2)
    else pos

/-- Embedding of `Player.seek(time)` (lines 107-121).  `if time:` is Python int
truthiness (`time ≠ 0`).  After the loop the code reads
`self._events[pos][0]` unconditionally, which raises `IndexError` when
`pos == len(self._events)`.  Returns the new state together with the
offset handed to `set_position`. -/
def seek (s : PlayerState) (time : Int) : Except String (PlayerState × Int) :=
  if time ≠ 0 then
    match s.events.get?
        (bisectLoop (s.events.map Prod.fst) time s.events.length 0
          s.events.length) with
    | some te =>
      Except.ok
        (set_position s
          (bisectLoop (s.events.map Prod.fst) time s.events.length 0
            s.events.length) (te.1 - time), te.1 - time)
    | none => Except.error "IndexError: list index out of range"
  else Except.ok (set_position s 0 0, 0)

/-- The externally observable outcome of `seek`: the resulting cursor
position and the reported time offset, `none` on failure. -/
def seekResult (s : PlayerState) (time : Int) : Option (Nat × Int) :=
  match seek s time with
  | Except.ok (s2, off) => some (s2.position, off)
  | Except.error _ => none

/-- The `for i, (t, e) in enumerate(self._events)` loop of
`Player.seek_measure` (lines 129-138).  `i` is the index of the head of
the remaining list; `found` carries `position` when `result` is True. -/
def seek_measure_loop (measnum beat : Int) :
    List (Int × Event) → Nat → Option Nat → Option Nat
  | [], _, found => found
  | p :: rest, i, found =>
    match p.2.beat with
    | none => seek_measure_loop measnum beat rest (i + 1) found
    | some (m, b, _, _) =>
      if m = measnum then
        if b ≥ beat then some i
        else seek_measure_loop measnum beat rest (i + 1) (some i)
      else if m > measnum then found
      else seek_measure_loop measnum beat rest (i + 1) found

/-- Embedding of `Player.seek_measure(measnum, beat)` (lines 123-142): on success set
the position (offset defaults to 0) and return True, otherwise return
False leaving the state untouched. -/
def seek_measure (s : PlayerState) (measnum beat : Int) : Bool × PlayerState :=
  match seek_measure_loop measnum beat s.events 0 none with
  | some p => (true, set_position s p 0)
  | none => (false, s)

/-- Embedding of `Player.handle_event(time, event)` (lines 183-190).  The body reads
`e.midi`, `e.time`, `e.beat`, but no name `e` is in scope (the parameter
is called `event`), so the very first statement `if e.midi:` raises
`NameError` before any dispatch can happen. -/
def handle_event (_time : Int) (_event : Event) : Except String (List Notification) :=
  Except.error "NameError: name e is not defined"

/-- Embedding of `Player.next_event` (lines 156-173).  The guard is
`if self._events and self._position < len(self._events):` (list
truthiness and a comparison); on the active path the current event is
handled, the position advanced, and either the delta to the next event
is returned or `finish()` is called and 0 returned. -/
def next_event (s : PlayerState) : Except String (Int × PlayerState × List Notification) :=
  if s.events.length ≠ 0 ∧ s.position < s.events.length then
    match s.events.get? s.position with
    | none => Except.error "IndexError: list index out of range"
    | some te =>
      (handle_event te.1 te.2).bind fun ns =>
        if s.position + 1 < s.events.length then
          match s.events.get? (s.position + 1) with
          | none => Except.error "IndexError: list index out of range"
          | some te2 =>
            Except.ok (te2.1 - te.1, { s with position := s.position + 1 }, ns)
        else
          Except.ok (0, { s with position := s.position + 1 },
            ns ++ [Notification.finished])
  else Except.ok (0, s, [])

/-! ### Spec-side description of `seek_measure` (claim C6)

The claim describes the scan as: walk forward, track the last index
whose beat marker's measure equals `measnum`, and stop early at the
first entry whose marker's measure exceeds `measnum` or whose marker
matches the measure with beat ≥ the requested beat.  The following
definitions transliterate those words so the loop can be proved equal
to them. -/

/-- Does this bundle's beat marker stop the scan? -/
def scanStops (measnum beat : Int) (e : Event) : Bool :=
  match e.beat with
  | some (m, b, _, _) =>
    decide (measnum < m) || (decide (m = measnum) && decide (beat ≤ b))
  | none => false

/-- The entries the scan looks at: everything up to and including the
first stopping entry. -/
def scannedEntries (measnum beat : Int) : List (Int × Event) → List (Int × Event)
  | [] => []
  | p :: rest =>
    if scanStops measnum beat p.2 then [p]
    else p :: scannedEntries measnum beat rest

/-- The last index in the list whose beat marker's measure equals
`measnum`. -/
def lastMatchIdx (measnum : Int) : List (Int × Event) → Option Nat
  | [] => none
  | p :: rest =>
    match lastMatchIdx measnum rest with
    | some j => some (j + 1)
    | none =>
      match p.2.beat with
      | some (m, _, _, _) => if m = measnum then some 0 else none
      | none => none

/-- A sample timeline with timestamps 0, 50, 100 (the one used by the
spec's seek examples). -/
def sampleTimeline : PlayerState :=
  ⟨[(0, Event.init), (50, Event.init), (100, Event.init)], 0, 1⟩

/-- A sample timeline carrying the spec's beat markers
(0,1,1,4,4), (480,1,2,4,4), (960,2,1,4,4). -/
def beatTimeline : PlayerState :=
  ⟨[(0, ⟨none, false, some (1, 1, 4, 4)⟩),
    (480, ⟨none, false, some (1, 2, 4, 4)⟩),
    (960, ⟨none, false, some (2, 1, 4, 4)⟩)], 0, 1⟩

/-! ### Properties of the bisection loop -/

/-- When the target time is negative and all timestamps are
non-negative, the comparison `time > self._events[mid][0]` never holds,
so the loop always moves `end` down and finally returns the initial
`pos`. -/
lemma bisectLoop_of_neg (ts : List Int) (t : Int) (hneg : t < 0)
    (hnn : ∀ x ∈ ts, 0 ≤ x) :
    ∀ fuel pos e, bisectLoop ts t fuel pos e = pos := by
  intro fuel
  induction fuel with
  | zero => intro pos e; rfl
  | succ n IH =>
    intro pos e
    have hcmp : ¬ t > ts.getD ((pos + e) / 2) 0 := by
      have h0 : 0 ≤ ts.getD ((pos + e) / 2) 0 := by
        rw [List.getD_eq_getElem?_getD]
        cases h : ts[(pos + e) / 2]? with
        | none => simp
        | some x =>
          have hx : x ∈ ts := by
            rcases List.getElem?_eq_some_iff.mp h with ⟨hlt, hx⟩
            exact hx ▸ List.getElem_mem hlt
          simpa using hnn x hx
      omega
    simp only [bisectLoop]
    by_cases hpe : pos < e
    · rw [if_pos hpe, if_neg hcmp, IH]
    · rw [if_neg hpe]

/-- Loop invariant of the bisection in `Player.seek`: starting from a
window `[pos, e)` whose left part is strictly below `t` and whose right
part is at or above `t`, the loop returns the lower-bound index for `t`
(provided the timestamps are monotone and the fuel covers the window
size). -/
lemma bisectLoop_inv (ts : List Int) (t : Int)
    (mono : ∀ i j : Nat, i < j → j < ts.length → ts.getD i 0 ≤ ts.getD j 0) :
    ∀ fuel pos e, e ≤ ts.length → pos ≤ e → e - pos ≤ fuel →
      (∀ j, j < pos → ts.getD j 0 < t) →
      (∀ j, e ≤ j → j < ts.length → t ≤ ts.getD j 0) →
      pos ≤ bisectLoop ts t fuel pos e ∧ bisectLoop ts t fuel pos e ≤ e ∧
      (∀ j, j < bisectLoop ts t fuel pos e → ts.getD j 0 < t) ∧
      (∀ j, bisectLoop ts t fuel pos e ≤ j → j < ts.length →
        t ≤ ts.getD j 0) := by
  intro fuel
  induction fuel with
  | zero =>
    intro pos e hlen hpe hfuel hlow hhigh
    have he : pos = e := by omega
    exact ⟨Nat.le_refl _, by simpa [bisectLoop] using hpe, hlow, by
      intro j hj hjl
      exact hhigh j (he ▸ hj) hjl⟩
  | succ n IH =>
    intro pos e hlen hpe hfuel hlow hhigh
    simp only [bisectLoop]
    by_cases hp : pos < e
    · rw [if_pos hp]
      have hm1 : pos ≤ (pos + e) / 2 := by omega
      have hm2 : (pos + e) / 2 < e := by omega
      by_cases hcmp : t > ts.getD ((pos + e) / 2) 0
      · rw [if_pos hcmp]
        have hlow' : ∀ j, j < (pos + e) / 2 + 1 → ts.getD j 0 < t := by
          intro j hj
          rcases Nat.lt_or_ge j ((pos + e) / 2) with hjm | hjm
          · exact lt_of_le_of_lt (mono j ((pos + e) / 2) hjm (by omega)) hcmp
          · have : j = (pos + e) / 2 := by omega
            exact this ▸ hcmp
        have h := IH ((pos + e) / 2 + 1) e hlen (by omega) (by omega) hlow' hhigh
        exact ⟨by omega, h.2.1, h.2.2⟩
      · rw [if_neg hcmp]
        have hhigh' : ∀ j, (pos + e) / 2 ≤ j → j < ts.length →
            t ≤ ts.getD j 0 := by
          intro j hj hjl
          rcases Nat.lt_or_ge j e with hje | hje
          · rcases Nat.eq_or_lt_of_le hj with heq | hlt
            · rw [← heq]
              omega
            · exact le_trans (by omega) (mono ((pos + e) / 2) j hlt hjl)
          · exact hhigh j hje hjl
        have h := IH pos ((pos + e) / 2) (by omega) (by omega) (by omega)
          hlow hhigh'
        exact ⟨h.1, by omega, h.2.2.1, h.2.2.2⟩
    · rw [if_neg hp]
      have he : pos = e := by omega
      exact ⟨Nat.le_refl _, hpe, hlow, fun j hj hjl => hhigh j (he ▸ hj) hjl⟩

/-- Timestamps as read by the bisection: `ts.getD j 0` agrees with the
first component of the timeline entry at `j`. -/
lemma timeline_ts_agree (events : List (Int × Event)) (j : Nat)
    (q : Int × Event) (hq : events.get? j = some q) :
    (events.map Prod.fst).getD j 0 = q.1 := by
  rw [List.getD_eq_getElem?_getD, List.getElem?_map]
  rw [List.get?_eq_getElem?] at hq
  rw [hq]
  rfl

/-! ### The scan of `seek_measure` versus its description -/

/-- The enumerate-loop of `seek_measure`, unrolled against the
declarative description: the result is the last matching index within
the scanned entries (shifted by the enumeration offset `i`), or the
accumulated `found` when the scanned entries contain no match. -/
lemma seek_measure_loop_spec (measnum beat : Int) :
    ∀ (events : List (Int × Event)) (i : Nat) (found : Option Nat),
      seek_measure_loop measnum beat events i found =
        match lastMatchIdx measnum (scannedEntries measnum beat events) with
        | some j => some (i + j)
        | none => found := by
  intro events
  induction events with
  | nil => intro i found; rfl
  | cons p rest IH =>
    intro i found
    cases hb : p.2.beat with
    | none =>
      have hstop : scanStops measnum beat p.2 = false := by
        simp [scanStops, hb]
      simp only [seek_measure_loop, hb, scannedEntries, hstop, if_false,
        Bool.false_eq_true, lastMatchIdx]
      rw [IH (i + 1) found]
      cases hL : lastMatchIdx measnum (scannedEntries measnum beat rest) with
      | none => simp [hb]
      | some j =>
        simp only [hb]
        congr 1
        omega
    | some tup =>
      obtain ⟨m, b, n, dn⟩ := tup
      by_cases hm : m = measnum
      · by_cases hbge : beat ≤ b
        · have hstop : scanStops measnum beat p.2 = true := by
            simp [scanStops, hb, hm, hbge]
          simp only [seek_measure_loop, hb, if_pos hm,
            if_pos (show b ≥ beat from hbge), scannedEntries, hstop, if_true,
            lastMatchIdx]
          simp [hb, hm]
        · have hstop : scanStops measnum beat p.2 = false := by
            simp [scanStops, hb, hm]
            omega
          simp only [seek_measure_loop, hb, if_pos hm,
            if_neg (show ¬ b ≥ beat from hbge), scannedEntries, hstop,
            if_false, Bool.false_eq_true, lastMatchIdx]
          rw [IH (i + 1) (some i)]
          cases hL : lastMatchIdx measnum (scannedEntries measnum beat rest) with
          | none => simp [hb, hm]
          | some j =>
            simp only [hb]
            congr 1
            omega
      · by_cases hgt : measnum < m
        · have hstop : scanStops measnum beat p.2 = true := by
            simp [scanStops, hb, hgt]
          simp only [seek_measure_loop, hb, if_neg hm,
            if_pos (show m > measnum from hgt), scannedEntries, hstop,
            if_true, lastMatchIdx]
        · have hstop : scanStops measnum beat p.2 = false := by
            simp [scanStops, hb, hm]
            omega
          simp only [seek_measure_loop, hb, if_neg hm,
            if_neg (show ¬ m > measnum from hgt), scannedEntries, hstop,
            if_false, Bool.false_eq_true, lastMatchIdx]
          rw [IH (i + 1) found]
          cases hL : lastMatchIdx measnum (scannedEntries measnum beat rest) with
          | none => simp [hb, hm]
          | some j =>
            simp only [hb]
            congr 1
            omega

/-- Every scanned entry is an entry of the timeline. -/
lemma scannedEntries_subset (measnum beat : Int) :
    ∀ (l : List (Int × Event)) (p : Int × Event),
      p ∈ scannedEntries measnum beat l → p ∈ l := by
  intro l
  induction l with
  | nil => intro p hp; exact absurd hp (List.not_mem_nil p)
  | cons q rest IH =>
    intro p hp
    by_cases hstop : scanStops measnum beat q.2
    · simp only [scannedEntries, if_pos hstop] at hp
      simp [List.mem_singleton.mp hp]
    · simp only [scannedEntries, if_neg hstop] at hp
      rcases List.mem_cons.mp hp with h | h
      · simp [h]
      · exact List.mem_cons_of_mem q (IH p h)

/-- If no entry of the list carries a beat marker in measure `measnum`,
there is no last matching index. -/
lemma lastMatchIdx_none (measnum : Int) :
    ∀ (l : List (Int × Event)),
      (∀ p ∈ l, ∀ m b n dn, p.2.beat = some (m, b, n, dn) → m ≠ measnum) →
      lastMatchIdx measnum l = none := by
  intro l
  induction l with
  | nil => intro _; rfl
  | cons p rest IH =>
    intro hno
    have hrest := IH fun q hq => hno q (List.mem_cons_of_mem p hq)
    simp only [lastMatchIdx, hrest]
    cases hb : p.2.beat with
    | none => rfl
    | some tup =>
      obtain ⟨m, b, n, dn⟩ := tup
      have := hno p (List.mem_cons_self p rest) m b n dn hb
      simp [this]

/-! ### Keys of the accumulated defaultdict -/

/-- The update `dUpdate` modifies the entry in place when the key is present and
appends the key otherwise. -/
lemma dUpdate_keys (t : Int) (f : Event → Event) :
    ∀ d : List (Int × Event),
      (dUpdate d t f).map Prod.fst =
        if t ∈ d.map Prod.fst then d.map Prod.fst
        else d.map Prod.fst ++ [t] := by
  intro d
  induction d with
  | nil => simp [dUpdate]
  | cons q rest IH =>
    by_cases hk : q.1 = t
    · simp [dUpdate, hk]
    · have hne : ¬ t = q.1 := fun h => hk h.symm
      simp only [dUpdate, if_neg hk, List.map_cons, IH]
      by_cases hr : t ∈ rest.map Prod.fst
      · simp [List.mem_cons, hne, hr]
      · simp [List.mem_cons, hne, hr]

/-- The update `dUpdate` keeps the keys free of duplicates. -/
lemma dUpdate_keys_nodup (t : Int) (f : Event → Event)
    (d : List (Int × Event)) (h : (d.map Prod.fst).Nodup) :
    ((dUpdate d t f).map Prod.fst).Nodup := by
  rw [dUpdate_keys]
  by_cases hmem : t ∈ d.map Prod.fst
  · rwa [if_pos hmem]
  · rw [if_neg hmem]
    simp [List.nodup_append, h, hmem]

/-- Folding `dUpdate`s over any list keeps the keys free of
duplicates. -/
lemma foldl_dUpdate_keys_nodup {α : Type} (key : α → Int)
    (f : α → Event → Event) :
    ∀ (l : List α) (d : List (Int × Event)), (d.map Prod.fst).Nodup →
      ((l.foldl (fun d a => dUpdate d (key a) (f a)) d).map Prod.fst).Nodup := by
  intro l
  induction l with
  | nil => intro d h; simpa using h
  | cons a rest IH =>
    intro d h
    exact IH (dUpdate d (key a) (f a)) (dUpdate_keys_nodup (key a) (f a) d h)

/-- The accumulated defaultdict never holds two entries with the same
timestamp. -/
lemma build_dict_keys_nodup (song : Song) (time : Option Int) (beat : Bool) :
    ((build_dict song time beat).map Prod.fst).Nodup := by
  have h0 : ((song.music.foldl
      (fun d p => dUpdate d p.1 (fun e => { e with midi := some p.2 }))
      []).map Prod.fst).Nodup :=
    foldl_dUpdate_keys_nodup Prod.fst
      (fun p e => { e with midi := some p.2 }) song.music [] (by simp)
  unfold build_dict
  cases time with
  | none =>
    by_cases hb : beat
    · simp only [if_pos hb]
      exact foldl_dUpdate_keys_nodup Prod.fst
        (fun p e => { e with beat := some p.2 }) song.beats _ h0
    · simpa [if_neg hb] using h0
  | some ti =>
    by_cases hti : ti = 0
    · by_cases hb : beat
      · simp only [if_pos hti, if_pos hb]
        exact foldl_dUpdate_keys_nodup Prod.fst
          (fun p e => { e with beat := some p.2 }) song.beats _ h0
      · simpa [if_pos hti, if_neg hb] using h0
    · have h1 : (((pyRange 0 (song.length + 1) ti).foldl
          (fun d t => dUpdate d t (fun e => { e with time := true }))
          (song.music.foldl
            (fun d p => dUpdate d p.1 (fun e => { e with midi := some p.2 }))
            [])).map Prod.fst).Nodup :=
        foldl_dUpdate_keys_nodup (fun t => t)
          (fun _ e => { e with time := true }) _ _ h0
      by_cases hb : beat
      · simp only [if_neg hti, if_pos hb]
        exact foldl_dUpdate_keys_nodup Prod.fst
          (fun p e => { e with beat := some p.2 }) song.beats _ h1
      · simpa [if_neg hti, if_neg hb] using h1

/-- Sorting an association list with duplicate-free keys by key yields a
strictly increasing sequence of keys. -/
lemma insertionSort_strict (d : List (Int × Event))
    (h : (d.map Prod.fst).Nodup) :
    List.Pairwise (fun p q : Int × Event => p.1 < q.1)
      (List.insertionSort keyLE d) := by
  have hsorted : List.Pairwise keyLE (List.insertionSort keyLE d) :=
    List.sorted_insertionSort keyLE d
  have hperm : List.Perm (List.insertionSort keyLE d) d :=
    List.perm_insertionSort keyLE d
  have hnodup : (((List.insertionSort keyLE d).map Prod.fst)).Nodup :=
    ((hperm.map Prod.fst).nodup_iff).mpr h
  have hne : List.Pairwise (fun p q : Int × Event => p.1 ≠ q.1)
      (List.insertionSort keyLE d) := List.pairwise_map.mp hnodup
  exact (hsorted.and hne).imp fun hpq => lt_of_le_of_ne hpq.1 hpq.2

/-! ### Lookups in the accumulated defaultdict -/

/-- Reading back the key just written: the stored bundle is `f` applied
to the previous bundle (or to a fresh `Event.init`). -/
lemma dLookup_dUpdate_self (t : Int) (f : Event → Event) :
    ∀ d : List (Int × Event),
      dLookup (dUpdate d t f) t = some (f ((dLookup d t).getD Event.init)) := by
  intro d
  induction d with
  | nil => simp [dUpdate, dLookup]
  | cons q rest IH =>
    by_cases hk : q.1 = t
    · simp [dUpdate, dLookup, hk]
    · simp [dUpdate, dLookup, hk, IH]

/-- Writing one key leaves every other key's bundle unchanged. -/
lemma dLookup_dUpdate_other (t t2 : Int) (f : Event → Event) (hne : t2 ≠ t) :
    ∀ d : List (Int × Event), dLookup (dUpdate d t f) t2 = dLookup d t2 := by
  have hne2 : ¬ t = t2 := fun h => hne h.symm
  intro d
  induction d with
  | nil => simp [dUpdate, dLookup, hne2]
  | cons q rest IH =>
    by_cases hk : q.1 = t
    · simp [dUpdate, dLookup, hk, hne2]
    · by_cases hk2 : q.1 = t2
      · simp [dUpdate, dLookup, hk, hk2, hne]
      · simp [dUpdate, dLookup, hk, hk2, IH]

/-- A successful lookup is a member of the association list. -/
lemma dLookup_mem (t : Int) (v : Event) :
    ∀ d : List (Int × Event), dLookup d t = some v → (t, v) ∈ d := by
  intro d
  induction d with
  | nil => intro h; simp [dLookup] at h
  | cons q rest IH =>
    intro h
    by_cases hk : q.1 = t
    · simp only [dLookup, if_pos hk] at h
      have : q = (t, v) := by
        obtain ⟨q1, q2⟩ := q
        simp at hk
        simp at h
        simp [hk, h]
      simp [this]
    · simp only [dLookup, if_neg hk] at h
      exact List.mem_cons_of_mem q (IH h)

/-- Folding updates whose bundle transformers preserve a set time flag
preserves any already set time flag. -/
lemma foldl_dUpdate_keeps_time {α : Type} (key : α → Int)
    (f : α → Event → Event)
    (hf : ∀ a v, v.time = true → (f a v).time = true) :
    ∀ (l : List α) (d : List (Int × Event)) (t : Int) (v : Event),
      dLookup d t = some v → v.time = true →
      ∃ v2, dLookup (l.foldl (fun d a => dUpdate d (key a) (f a)) d) t
              = some v2 ∧ v2.time = true := by
  intro l
  induction l with
  | nil => intro d t v hv htime; exact ⟨v, hv, htime⟩
  | cons a rest IH =>
    intro d t v hv htime
    by_cases hk : key a = t
    · have hlook : dLookup (dUpdate d (key a) (f a)) t
          = some (f a ((dLookup d t).getD Event.init)) := by
        rw [← hk] at hv ⊢
        exact dLookup_dUpdate_self (key a) (f a) d
      rw [hv] at hlook
      exact IH (dUpdate d (key a) (f a)) t _ hlook (hf a v htime)
    · have hlook : dLookup (dUpdate d (key a) (f a)) t = dLookup d t :=
        dLookup_dUpdate_other (key a) t (f a) (fun h => hk h.symm) d
      exact IH (dUpdate d (key a) (f a)) t v (by rw [hlook]; exact hv) htime

/-- After the time-tick loop, every timestamp of the range holds a
bundle whose time flag is set. -/
lemma foldl_time_sets :
    ∀ (R : List Int) (d : List (Int × Event)) (t : Int), t ∈ R →
      ∃ v, dLookup
          (R.foldl (fun d t2 => dUpdate d t2 (fun e => { e with time := true })) d)
          t = some v ∧ v.time = true := by
  intro R
  induction R with
  | nil => intro d t ht; exact absurd ht (List.not_mem_nil t)
  | cons r rest IH =>
    intro d t ht
    by_cases hrest : t ∈ rest
    · exact IH _ t hrest
    · have htr : t = r := by
        rcases List.mem_cons.mp ht with h | h
        · exact h
        · exact absurd h hrest
      subst htr
      have hlook : dLookup (dUpdate d t (fun e => { e with time := true })) t
          = some { (dLookup d t).getD Event.init with time := true } :=
        dLookup_dUpdate_self t _ d
      have := foldl_dUpdate_keeps_time (fun t2 => t2)
        (fun _ e => { e with time := true }) (fun _ _ _ => rfl) rest
        (dUpdate d t (fun e => { e with time := true })) t _ hlook rfl
      simpa using this

/-! ### Membership in the Python range -/

/-- Every `start + k * step` below `stop` is produced by a positive-step
range (given enough fuel). -/
lemma mem_pyRangeAux (step : Int) (hstep : 0 < step) (stop : Int) :
    ∀ (k : Nat) (start : Int) (fuel : Nat),
      start + k * step < stop → (stop - start).toNat ≤ fuel →
      start + k * step ∈ pyRangeAux stop step fuel start := by
  intro k
  induction k with
  | zero =>
    intro start fuel hlt hfuel
    have h0 : start < stop := by simpa using hlt
    cases fuel with
    | zero => omega
    | succ f =>
      simp only [pyRangeAux, if_pos hstep, if_pos h0]
      exact List.mem_cons.mpr (Or.inl (by push_cast; ring))
  | succ k IH =>
    intro start fuel hlt hfuel
    have hks : start + ((k : Nat) + 1 : Nat) * step
        = (start + step) + (k : Nat) * step := by push_cast; ring
    have hkpos : (0 : Int) ≤ ((k : Nat) : Int) * step :=
      mul_nonneg (by positivity) (le_of_lt hstep)
    have hlt2 : (start + step) + ((k : Nat) : Int) * step < stop := by
      rw [hks] at hlt
      exact hlt
    have h0 : start < stop := by linarith
    cases fuel with
    | zero => omega
    | succ f =>
      simp only [pyRangeAux, if_pos hstep, if_pos h0]
      apply List.mem_cons_of_mem
      rw [hks]
      exact IH (start + step) f hlt2 (by omega)

/-- 0 is always in `range(0, length + 1, ti)` for positive `ti` and
non-negative length. -/
lemma zero_mem_pyRange (L ti : Int) (hti : 0 < ti) (hL : 0 ≤ L) :
    (0 : Int) ∈ pyRange 0 (L + 1) ti := by
  have h := mem_pyRangeAux ti hti (L + 1) 0 0 ((L + 1) - 0).natAbs
    (by push_cast; omega) (by omega)
  unfold pyRange
  simpa using h

/-- The length is in `range(0, length + 1, ti)` whenever `ti` divides
it. -/
lemma length_mem_pyRange (L ti : Int) (hti : 0 < ti) (hL : 0 ≤ L)
    (hdvd : ti ∣ L) : L ∈ pyRange 0 (L + 1) ti := by
  obtain ⟨c, hc⟩ := hdvd
  have hc0 : 0 ≤ c := by
    by_contra hneg
    push_neg at hneg
    nlinarith
  have hk : ((c.toNat : Nat) : Int) = c := Int.toNat_of_nonneg hc0
  have hkt : (0 : Int) + ((c.toNat : Nat) : Int) * ti = L := by
    rw [hk, hc]
    ring
  have harg : (0 : Int) + ((c.toNat : Nat) : Int) * ti < L + 1 := by
    rw [hkt]
    omega
  have h := mem_pyRangeAux ti hti (L + 1) c.toNat 0 ((L + 1) - 0).natAbs
    harg (by omega)
  unfold pyRange
  rwa [hkt] at h

/-! ### Simple claim theorems -/

/-- C1: the claim says seek past the last timestamp completes without
failure (position = length), and never fails on an empty timeline for a
positive target.  The code is wrong: after the bisection loop,
line 120 reads `self._events[pos][0]` unconditionally, and `pos` equals
the list length in both situations, so an `IndexError` is raised.  This
theorem evaluates the code at both failing inputs. -/
theorem seek_past_end_raises_indexError :
    seek ⟨[(0, Event.init), (50, Event.init), (100, Event.init)], 0, 1⟩ 1000
        = Except.error "IndexError: list index out of range" ∧
    seek ⟨([] : List (Int × Event)), 0, 1⟩ 5
        = Except.error "IndexError: list index out of range" :=
  ⟨rfl, rfl⟩

/-- C2: the claim says an active cursor dispatches the bundle's
notifications in order midi, timeTick, beatMarker.  The code is wrong:
`handle_event` (lines 185-190) reads the undefined name `e` instead of
its parameter `event`, so `NameError` is raised before any dispatch.
This theorem evaluates the code on an active cursor whose bundle
carries all three fields. -/
theorem next_event_active_raises_nameError :
    next_event ⟨[(0, ⟨some 7, true, some (1, 1, 4, 4)⟩)], 0, 1⟩
        = Except.error "NameError: name e is not defined" :=
  rfl

/-- C7: when the position is at or past the end of the timeline (in
particular on an empty timeline), `next_event` returns 0 and leaves the
whole state unchanged, emitting no notification. -/
theorem next_event_finished_noop (s : PlayerState)
    (h : s.events.length ≤ s.position) :
    next_event s = Except.ok (0, s, []) := by
  have hg : ¬(s.events.length ≠ 0 ∧ s.position < s.events.length) := by omega
  unfold next_event
  rw [if_neg hg]

theorem next_event_finished_noop_witness :
    next_event ⟨[(0, Event.init)], 1, 1⟩
        = Except.ok (0, ⟨[(0, Event.init)], 1, 1⟩, []) :=
  next_event_finished_noop ⟨[(0, Event.init)], 1, 1⟩ (by decide)

/-- C9: the position and the reported offset computed by `seek` depend
only on the timeline and the target time: two cursors sharing the same
timeline but differing in prior position and tempo factor produce the
same outcome (including agreeing on failure). -/
theorem seek_cursor_independent (ev : List (Int × Event)) (p1 p2 : Nat)
    (f1 f2 : Rat) (t : Int) :
    seekResult ⟨ev, p1, f1⟩ t = seekResult ⟨ev, p2, f2⟩ t := by
  by_cases ht : t ≠ 0 <;>
    simp only [seekResult, seek, set_position, ht, if_true, if_false,
      ite_true, ite_false]
  · cases h : ev.get? (bisectLoop (ev.map Prod.fst) t ev.length 0 ev.length) <;>
      simp [h, ht]

/-- C10: on a non-empty timeline with the cursor in the Finished state
(position = length), `current_time` returns the same value as
`total_time`, namely the timestamp of the last entry. -/
theorem current_time_eq_total_time_at_end (s : PlayerState)
    (hne : s.events ≠ []) (hpos : s.position = s.events.length) :
    ∃ te, s.events.getLast? = some te ∧
      current_time s = Except.ok te.1 ∧ total_time s = te.1 := by
  have hlen : 0 < s.events.length := List.length_pos.mpr hne
  have hsome : s.events.getLast?.isSome := List.getLast?_isSome.mpr hne
  obtain ⟨te, hte⟩ := Option.isSome_iff_exists.mp hsome
  refine ⟨te, hte, ?_, ?_⟩
  · have hge : (s.position : Int) - 1 ≥ 0 := by omega
    have hidx : s.events[s.position - 1]? = some te := by
      rw [hpos]
      rw [List.getLast?_eq_getElem?] at hte
      exact hte
    simp [current_time, hge, hidx]
  · simp [total_time, hte]

theorem current_time_eq_total_time_at_end_witness :
    ∃ te, (⟨[(0, Event.init), (50, Event.init)], 2, 1⟩ :
        PlayerState).events.getLast? = some te ∧
      current_time ⟨[(0, Event.init), (50, Event.init)], 2, 1⟩ = Except.ok te.1 ∧
      total_time ⟨[(0, Event.init), (50, Event.init)], 2, 1⟩ = te.1 :=
  current_time_eq_total_time_at_end ⟨[(0, Event.init), (50, Event.init)], 2, 1⟩
    (by decide) (by decide)

/-- C5: on a non-empty strictly sorted timeline, for a target with
0 < t ≤ last timestamp, `seek` succeeds, lands on the smallest index
whose timestamp is ≥ t (every earlier timestamp is < t), and reports
the non-negative offset timestamp-at-position − t; `seek 0` resolves to
position 0 with offset 0 without searching. -/
theorem seek_lower_bound (s : PlayerState) (t : Int)
    (hne : s.events ≠ [])
    (hsorted : List.Pairwise (fun p q : Int × Event => p.1 < q.1) s.events)
    (ht : 0 < t) (hle : t ≤ total_time s) :
    (∃ p te, s.events.get? p = some te ∧
       seek s t = Except.ok ({ s with position := p }, te.1 - t) ∧
       t ≤ te.1 ∧ 0 ≤ te.1 - t ∧
       (∀ j q, j < p → s.events.get? j = some q → q.1 < t)) ∧
    seek s 0 = Except.ok ({ s with position := 0 }, 0) := by
  refine ⟨?_, rfl⟩
  have hlen0 : 0 < s.events.length := List.length_pos.mpr hne
  have hmono : ∀ i j : Nat, i < j → j < (s.events.map Prod.fst).length →
      (s.events.map Prod.fst).getD i 0 ≤ (s.events.map Prod.fst).getD j 0 := by
    intro i j hij hj
    have hp : List.Pairwise (· < ·) (s.events.map Prod.fst) :=
      List.pairwise_map.mpr hsorted
    have hlt := List.pairwise_iff_getElem.mp hp i j (by omega) hj hij
    rw [List.getD_eq_getElem?_getD, List.getD_eq_getElem?_getD,
      List.getElem?_eq_getElem (by omega : i < (s.events.map Prod.fst).length),
      List.getElem?_eq_getElem hj]
    simpa using le_of_lt hlt
  obtain ⟨hr0, hrle, hlow, hhigh⟩ :=
    bisectLoop_inv (s.events.map Prod.fst) t hmono s.events.length 0
      s.events.length (by rw [List.length_map]) (Nat.zero_le _) (by omega)
      (fun j hj => absurd hj (Nat.not_lt_zero j))
      (fun j hj hjl => by rw [List.length_map] at hjl; omega)
  obtain ⟨tlast, htlast⟩ :=
    Option.isSome_iff_exists.mp (List.getLast?_isSome.mpr hne)
  have htot : total_time s = tlast.1 := by simp [total_time, htlast]
  have hlast_idx : s.events.get? (s.events.length - 1) = some tlast := by
    rw [List.get?_eq_getElem?]
    rw [List.getLast?_eq_getElem?] at htlast
    exact htlast
  have hlast_ts : (s.events.map Prod.fst).getD (s.events.length - 1) 0 = tlast.1 :=
    timeline_ts_agree s.events _ tlast hlast_idx
  rw [htot] at hle
  have hrlt :
      bisectLoop (s.events.map Prod.fst) t s.events.length 0 s.events.length <
        s.events.length := by
    rcases Nat.lt_or_ge
      (bisectLoop (s.events.map Prod.fst) t s.events.length 0 s.events.length)
      s.events.length with h | h
    · exact h
    · have := hlow (s.events.length - 1) (by omega)
      rw [hlast_ts] at this
      omega
  have hr_idx : s.events.get?
      (bisectLoop (s.events.map Prod.fst) t s.events.length 0 s.events.length)
        = some (s.events.get ⟨_, hrlt⟩) := by
    rw [List.get?_eq_getElem?]
    exact List.getElem?_eq_getElem hrlt
  refine ⟨_, s.events.get ⟨_, hrlt⟩, hr_idx, ?_, ?_, ?_, ?_⟩
  · unfold seek
    rw [if_pos (show t ≠ 0 by omega)]
    rw [hr_idx]
    rfl
  · have hts_r := timeline_ts_agree s.events _ _ hr_idx
    have := hhigh _ (Nat.le_refl _) (by rw [List.length_map]; exact hrlt)
    omega
  · have hts_r := timeline_ts_agree s.events _ _ hr_idx
    have := hhigh _ (Nat.le_refl _) (by rw [List.length_map]; exact hrlt)
    omega
  · intro j q hj hq
    have hts_j := timeline_ts_agree s.events j q hq
    have := hlow j hj
    omega

theorem seek_lower_bound_witness :
    (∃ p te, sampleTimeline.events.get? p = some te ∧
       seek sampleTimeline 30
           = Except.ok ({ sampleTimeline with position := p }, te.1 - 30) ∧
       (30 : Int) ≤ te.1 ∧ 0 ≤ te.1 - 30 ∧
       (∀ j q, j < p → sampleTimeline.events.get? j = some q → q.1 < 30)) ∧
    seek sampleTimeline 0 = Except.ok ({ sampleTimeline with position := 0 }, 0) :=
  seek_lower_bound sampleTimeline 30 (by decide) (by decide) (by decide)
    (by decide)

/-- C4, amended: a negative target time is truthy in Python, so the
bisection runs; with non-negative timestamps it lands on position 0
(as `seek(0)` would), but the reported offset is the first timestamp
minus the target — strictly positive, not 0 — and on an empty timeline
the unconditional read of `self._events[0]` raises `IndexError` instead
of behaving like `seek(0)`. -/
theorem seek_negative_behavior (s : PlayerState) (t : Int) (hneg : t < 0)
    (hnn : ∀ p ∈ s.events, 0 ≤ p.1) :
    (s.events = [] →
      seek s t = Except.error "IndexError: list index out of range") ∧
    (∀ te rest, s.events = te :: rest →
      seek s t = Except.ok ({ s with position := 0 }, te.1 - t) ∧
        0 < te.1 - t) := by
  obtain ⟨ev, pn, tf⟩ := s
  simp only at hnn ⊢
  constructor
  · intro hnil
    subst hnil
    unfold seek
    rw [if_pos (show t ≠ 0 by omega)]
    rfl
  · intro te rest hcons
    subst hcons
    have hmem : (0:Int) ≤ te.1 := hnn te (List.mem_cons_self te rest)
    have hz : bisectLoop ((te :: rest).map Prod.fst) t (te :: rest).length 0
        (te :: rest).length = 0 := by
      refine bisectLoop_of_neg _ t hneg ?_ _ _ _
      intro x hx
      obtain ⟨p, hp, hpx⟩ := List.mem_map.mp hx
      exact hpx ▸ hnn p hp
    constructor
    · unfold seek
      rw [if_pos (show t ≠ 0 by omega), hz]
      rfl
    · omega

theorem seek_negative_behavior_witness :
    seek ⟨[(0, Event.init)], 3, 7⟩ (-5)
        = Except.ok (⟨[(0, Event.init)], 0, 7⟩, 5) ∧ (0 : Int) < 5 :=
  (seek_negative_behavior ⟨[(0, Event.init)], 3, 7⟩ (-5) (by decide)
    (by decide)).2 (0, Event.init) [] rfl

/-- C3, counterexample: for a song of length 150 with time interval 100
the built timeline has no time tick at the final length 150 (ticks are
generated only at multiples of the interval up to the length), refuting
the claim that a tick is present at the length regardless of
divisibility. -/
theorem make_event_list_no_tick_at_length_cex :
    ¬ ∃ p ∈ make_event_list ⟨[], 150, []⟩ (some 100) true,
        p.1 = (150 : Int) ∧ p.2.time = true := by
  decide

/-- C4, counterexample: on the one-entry timeline with timestamp 0,
seeking to -5 reports offset 5 (first timestamp minus the target), not
the offset 0 that `seek(0)` reports, refuting the claim that a negative
target behaves exactly as `seek(0)`. -/
theorem seek_negative_not_like_zero_cex :
    seekResult ⟨[(0, Event.init)], 0, 1⟩ (-5) ≠ some (0, 0) := by
  decide

/-- C6: `seek_measure` behaves exactly as the claim describes the scan:
walk the timeline tracking the last index whose beat marker's measure
equals `measnum`, stopping early at the first marker whose measure
exceeds `measnum` or matches it with beat ≥ the requested beat
(`scannedEntries`); if a matching index was found (`lastMatchIdx`),
jump there and return true, otherwise return false leaving the state
unchanged — in particular, when no marker's measure equals `measnum`
at all, the scan reports false and the position is untouched. -/
theorem seek_measure_follows_scan (s : PlayerState) (measnum beat : Int) :
    (seek_measure s measnum beat =
      match lastMatchIdx measnum (scannedEntries measnum beat s.events) with
      | some p => (true, { s with position := p })
      | none => (false, s)) ∧
    ((∀ p ∈ s.events, ∀ m b n dn, p.2.beat = some (m, b, n, dn) →
        m ≠ measnum) →
      seek_measure s measnum beat = (false, s)) := by
  have hmain : seek_measure s measnum beat =
      match lastMatchIdx measnum (scannedEntries measnum beat s.events) with
      | some p => (true, { s with position := p })
      | none => (false, s) := by
    unfold seek_measure
    rw [seek_measure_loop_spec]
    cases hL : lastMatchIdx measnum (scannedEntries measnum beat s.events) with
    | none => rfl
    | some j => simp [set_position]
  refine ⟨hmain, ?_⟩
  intro hno
  have hnone : lastMatchIdx measnum (scannedEntries measnum beat s.events)
      = none :=
    lastMatchIdx_none measnum _
      (fun p hp => hno p (scannedEntries_subset measnum beat s.events p hp))
  rw [hmain, hnone]

/-- C8: for every song and every choice of time interval and beat flag,
the built timeline is strictly increasing by timestamp — no two entries
share a timestamp, since all contributions at one timestamp are merged
into the single defaultdict bundle for that key. -/
theorem make_event_list_strict_increasing (song : Song) (time : Option Int)
    (beat : Bool) :
    List.Pairwise (fun p q : Int × Event => p.1 < q.1)
      (make_event_list song time beat) := by
  unfold make_event_list
  exact insertionSort_strict _ (build_dict_keys_nodup song time beat)

/-- Completeness of the range: every element of a positive-step range
is `start + k * step` for some `k`, and below `stop`. -/
lemma mem_pyRangeAux_elim (stop step : Int) (hstep : 0 < step) :
    ∀ (fuel : Nat) (start x : Int), x ∈ pyRangeAux stop step fuel start →
      ∃ k : Nat, x = start + k * step ∧ x < stop := by
  intro fuel
  induction fuel with
  | zero => intro start x hx; simp [pyRangeAux] at hx
  | succ f IH =>
    intro start x hx
    simp only [pyRangeAux, if_pos hstep] at hx
    by_cases h0 : start < stop
    · rw [if_pos h0] at hx
      rcases List.mem_cons.mp hx with h | h
      · exact ⟨0, by rw [h]; push_cast; ring, by rw [h]; exact h0⟩
      · obtain ⟨k, hk, hlt⟩ := IH (start + step) x h
        exact ⟨k + 1, by rw [hk]; push_cast; ring, hlt⟩
    · rw [if_neg h0] at hx
      simp at hx

/-- Every element of `range(0, L + 1, ti)` is a non-negative multiple
of `ti` not exceeding `L`. -/
lemma mem_pyRange_elim (L ti x : Int) (hti : 0 < ti)
    (hx : x ∈ pyRange 0 (L + 1) ti) :
    ∃ k : Nat, x = (k : Int) * ti ∧ x ≤ L := by
  unfold pyRange at hx
  obtain ⟨k, hk, hlt⟩ := mem_pyRangeAux_elim (L + 1) ti hti _ 0 x hx
  exact ⟨k, by rw [hk]; ring, by omega⟩

/-- Folding updates whose bundle transformers leave the time field
unchanged cannot make a time flag true: a set flag after the fold was
already set before it. -/
lemma foldl_dUpdate_time_back {α : Type} (key : α → Int)
    (f : α → Event → Event) (hf : ∀ a v, (f a v).time = v.time) :
    ∀ (l : List α) (d : List (Int × Event)) (t : Int) (v : Event),
      dLookup (l.foldl (fun d a => dUpdate d (key a) (f a)) d) t = some v →
      v.time = true →
      ∃ v0, dLookup d t = some v0 ∧ v0.time = true := by
  intro l
  induction l with
  | nil => intro d t v hv ht; exact ⟨v, hv, ht⟩
  | cons a rest IH =>
    intro d t v hv ht
    obtain ⟨v1, hv1, ht1⟩ := IH (dUpdate d (key a) (f a)) t v hv ht
    by_cases hk : key a = t
    · rw [← hk] at hv1
      rw [dLookup_dUpdate_self] at hv1
      have hv1e : v1 = f a ((dLookup d (key a)).getD Event.init) :=
        (Option.some.inj hv1).symm
      rw [hv1e, hf] at ht1
      cases hd : dLookup d (key a) with
      | none =>
        rw [hd] at ht1
        simp [Event.init] at ht1
      | some v0 =>
        rw [hd] at ht1
        exact ⟨v0, by rw [← hk]; exact hd, by simpa using ht1⟩
    · rw [dLookup_dUpdate_other (key a) t (f a) (fun h => hk h.symm)] at hv1
      exact ⟨v1, hv1, ht1⟩

/-- The MIDI loop, which starts from the empty dict and only writes the
midi field, never sets a time flag. -/
lemma music_fold_no_time (l : List (Int × Nat)) (t : Int) (v : Event)
    (hv : dLookup
        (l.foldl (fun d p => dUpdate d p.1 (fun e => { e with midi := some p.2 })) [])
        t = some v) :
    v.time = false := by
  cases hvt : v.time with
  | false => rfl
  | true =>
    obtain ⟨v0, hv0, _⟩ := foldl_dUpdate_time_back Prod.fst
      (fun p e => { e with midi := some p.2 }) (fun _ _ => rfl) l [] t v hv hvt
    simp [dLookup] at hv0

/-- Conversely to `foldl_time_sets`: a time flag set after the tick loop
was either set by the loop (the timestamp is in the range) or already
set before it. -/
lemma foldl_time_back :
    ∀ (R : List Int) (d : List (Int × Event)) (t : Int) (v : Event),
      dLookup
          (R.foldl (fun d t2 => dUpdate d t2 (fun e => { e with time := true })) d)
          t = some v →
      v.time = true →
      t ∈ R ∨ ∃ v0, dLookup d t = some v0 ∧ v0.time = true := by
  intro R
  induction R with
  | nil => intro d t v hv ht; exact Or.inr ⟨v, hv, ht⟩
  | cons r rest IH =>
    intro d t v hv ht
    rcases IH (dUpdate d r (fun e => { e with time := true })) t v hv ht with
      h | ⟨v1, hv1, ht1⟩
    · exact Or.inl (List.mem_cons_of_mem r h)
    · by_cases hk : r = t
      · exact Or.inl (by rw [← hk]; exact List.mem_cons_self r rest)
      · rw [dLookup_dUpdate_other r t _ (fun h => hk h.symm)] at hv1
        exact Or.inr ⟨v1, hv1, ht1⟩

/-- With duplicate-free keys, membership determines the lookup. -/
lemma dLookup_of_mem_nodup :
    ∀ (d : List (Int × Event)) (t : Int) (v : Event),
      (d.map Prod.fst).Nodup → (t, v) ∈ d → dLookup d t = some v := by
  intro d
  induction d with
  | nil => intro t v _ h; simp at h
  | cons q rest IH =>
    intro t v hnd hmem
    rw [List.map_cons, List.nodup_cons] at hnd
    rcases List.mem_cons.mp hmem with h | h
    · cases h.symm
      simp [dLookup]
    · have hne : ¬ q.1 = t := by
        intro he
        exact hnd.1 (he ▸ List.mem_map.mpr ⟨(t, v), h, rfl⟩)
      simp only [dLookup, if_neg hne]
      exact IH t v hnd.2 h

/-- A bundle of the accumulated dict with a set time flag sits at a
timestamp of the tick range: nothing else sets the flag. -/
lemma build_dict_time_mem_range (song : Song) (ti : Int) (b : Bool)
    (hti0 : ¬ ti = 0) (t : Int) (v : Event)
    (hv : dLookup (build_dict song (some ti) b) t = some v)
    (ht : v.time = true) :
    t ∈ pyRange 0 (song.length + 1) ti := by
  have hstep : ∃ v1,
      dLookup
          ((pyRange 0 (song.length + 1) ti).foldl
            (fun d t2 => dUpdate d t2 (fun e => { e with time := true }))
            (song.music.foldl
              (fun d p => dUpdate d p.1 (fun e => { e with midi := some p.2 }))
              []))
          t = some v1 ∧ v1.time = true := by
    by_cases hb : b
    · simp only [build_dict, if_neg hti0, if_pos hb] at hv
      exact foldl_dUpdate_time_back Prod.fst
        (fun p e => { e with beat := some p.2 }) (fun _ _ => rfl)
        song.beats _ t v hv ht
    · simp only [build_dict, if_neg hti0, if_neg hb] at hv
      exact ⟨v, hv, ht⟩
  obtain ⟨v1, hv1, ht1⟩ := hstep
  rcases foldl_time_back (pyRange 0 (song.length + 1) ti) _ t v1 hv1 ht1 with
    h | ⟨v0, hv0, ht0⟩
  · exact h
  · have := music_fold_no_time song.music t v0 hv0
    rw [this] at ht0
    exact absurd ht0 (by simp)

/-- Every timestamp of the tick range carries a tick in the built
timeline. -/
lemma tick_in_output (song : Song) (ti : Int) (b : Bool) (hti0 : ¬ ti = 0) :
    ∀ t, t ∈ pyRange 0 (song.length + 1) ti →
      ∃ p ∈ make_event_list song (some ti) b,
        p.1 = t ∧ p.2.time = true := by
  intro t ht
  obtain ⟨v, hv, hvt⟩ := foldl_time_sets (pyRange 0 (song.length + 1) ti)
    (song.music.foldl
      (fun d p => dUpdate d p.1 (fun e => { e with midi := some p.2 })) [])
    t ht
  have hstep2 : ∃ v2,
      dLookup (build_dict song (some ti) b) t = some v2 ∧
        v2.time = true := by
    by_cases hb : b
    · simp only [build_dict, if_neg hti0, if_pos hb]
      exact foldl_dUpdate_keeps_time Prod.fst
        (fun p e => { e with beat := some p.2 }) (fun _ _ h => h)
        song.beats _ t v hv hvt
    · simp only [build_dict, if_neg hti0, if_neg hb]
      exact ⟨v, hv, hvt⟩
  obtain ⟨v2, hv2, hv2t⟩ := hstep2
  have hmem : (t, v2) ∈ build_dict song (some ti) b := dLookup_mem t v2 _ hv2
  have hmem2 : (t, v2) ∈ make_event_list song (some ti) b := by
    unfold make_event_list
    exact ((List.perm_insertionSort keyLE _).mem_iff).mpr hmem
  exact ⟨(t, v2), hmem2, rfl, hv2t⟩

/-- Conversely, every tick of the built timeline sits at a timestamp of
the tick range. -/
lemma output_tick_in_range (song : Song) (ti : Int) (b : Bool)
    (hti0 : ¬ ti = 0) :
    ∀ p ∈ make_event_list song (some ti) b, p.2.time = true →
      p.1 ∈ pyRange 0 (song.length + 1) ti := by
  intro p hp ht
  have hmem : p ∈ build_dict song (some ti) b := by
    unfold make_event_list at hp
    exact ((List.perm_insertionSort keyLE _).mem_iff).mp hp
  have hlook : dLookup (build_dict song (some ti) b) p.1 = some p.2 :=
    dLookup_of_mem_nodup _ p.1 p.2 (build_dict_keys_nodup song (some ti) b)
      hmem
  exact build_dict_time_mem_range song ti b hti0 p.1 p.2 hlook ht

/-- C3, amended: for every song with non-negative length and every
positive time interval, the built timeline has a bundle with the time
flag set at timestamp 0, and at the song's length whenever the interval
divides the length (the loop is `range(0, length+1, interval)`, whose
last element is the largest multiple of the interval not exceeding the
length — so a tick lands on the length only in the divisible case).
When the interval does not divide the length, no bundle at the length
carries a tick, and the last tick falls on the largest multiple `m` of
the interval not exceeding the length (`m ≤ length < m + interval`,
which is strictly below the length here): a tick sits at `m` and every
tick sits at a timestamp `≤ m`. -/
theorem make_event_list_time_ticks (song : Song) (ti : Int) (b : Bool)
    (hti : 0 < ti) (hlen : 0 ≤ song.length) :
    (∃ p ∈ make_event_list song (some ti) b, p.1 = 0 ∧ p.2.time = true) ∧
    (ti ∣ song.length →
      ∃ p ∈ make_event_list song (some ti) b,
        p.1 = song.length ∧ p.2.time = true) ∧
    (¬ ti ∣ song.length →
      (∀ p ∈ make_event_list song (some ti) b,
        p.1 = song.length → p.2.time = false) ∧
      ∃ m : Int, ti ∣ m ∧ 0 ≤ m ∧ m ≤ song.length ∧ song.length < m + ti ∧
        (∃ p ∈ make_event_list song (some ti) b,
          p.1 = m ∧ p.2.time = true) ∧
        (∀ p ∈ make_event_list song (some ti) b,
          p.2.time = true → p.1 ≤ m)) := by
  have hti0 : ¬ ti = 0 := by omega
  have hcast_ti : ((ti.toNat : Nat) : Int) = ti := Int.toNat_of_nonneg (by omega)
  have hcast_len : ((song.length.toNat : Nat) : Int) = song.length :=
    Int.toNat_of_nonneg hlen
  refine ⟨?_, ?_, ?_⟩
  · exact tick_in_output song ti b hti0 0
      (zero_mem_pyRange song.length ti hti hlen)
  · intro hdvd
    exact tick_in_output song ti b hti0 song.length
      (length_mem_pyRange song.length ti hti hlen hdvd)
  · intro hndvd
    constructor
    · intro p hp hplen
      cases hpt : p.2.time with
      | false => rfl
      | true =>
        have hr := output_tick_in_range song ti b hti0 p hp hpt
        obtain ⟨k, hk, _⟩ := mem_pyRange_elim song.length ti p.1 hti hr
        exact absurd ⟨(k : Int), by rw [← hplen, hk]; ring⟩ hndvd
    · refine ⟨((song.length.toNat / ti.toNat : Nat) : Int) * ti,
        ⟨((song.length.toNat / ti.toNat : Nat) : Int), by ring⟩, ?_, ?_, ?_,
        ?_, ?_⟩
      · positivity
      · have h := Nat.div_mul_le_self song.length.toNat ti.toNat
        calc ((song.length.toNat / ti.toNat : Nat) : Int) * ti
            = ((song.length.toNat / ti.toNat * ti.toNat : Nat) : Int) := by
              push_cast
              rw [hcast_ti]
          _ ≤ ((song.length.toNat : Nat) : Int) := by exact_mod_cast h
          _ = song.length := hcast_len
      · have hmod := Nat.div_add_mod song.length.toNat ti.toNat
        have hlt := Nat.mod_lt song.length.toNat
          (show 0 < ti.toNat by omega)
        have hcomm : ti.toNat * (song.length.toNat / ti.toNat)
            = song.length.toNat / ti.toNat * ti.toNat := Nat.mul_comm _ _
        have hnat : song.length.toNat
            < song.length.toNat / ti.toNat * ti.toNat + ti.toNat := by
          omega
        calc song.length = ((song.length.toNat : Nat) : Int) := hcast_len.symm
          _ < ((song.length.toNat / ti.toNat * ti.toNat + ti.toNat : Nat) : Int) := by
              exact_mod_cast hnat
          _ = ((song.length.toNat / ti.toNat : Nat) : Int) * ti + ti := by
              push_cast
              rw [hcast_ti]
      · apply tick_in_output song ti b hti0
        have hle : ((song.length.toNat / ti.toNat : Nat) : Int) * ti
            ≤ song.length := by
          have h := Nat.div_mul_le_self song.length.toNat ti.toNat
          calc ((song.length.toNat / ti.toNat : Nat) : Int) * ti
              = ((song.length.toNat / ti.toNat * ti.toNat : Nat) : Int) := by
                push_cast
                rw [hcast_ti]
            _ ≤ ((song.length.toNat : Nat) : Int) := by exact_mod_cast h
            _ = song.length := hcast_len
        have h := mem_pyRangeAux ti hti (song.length + 1)
          (song.length.toNat / ti.toNat) 0 ((song.length + 1) - 0).natAbs
          (by omega) (by omega)
        unfold pyRange
        simpa using h
      · intro p hp hpt
        have hr := output_tick_in_range song ti b hti0 p hp hpt
        obtain ⟨k, hk, hle⟩ := mem_pyRange_elim song.length ti p.1 hti hr
        have hkK : k ≤ song.length.toNat / ti.toNat := by
          rw [Nat.le_div_iff_mul_le (show 0 < ti.toNat by omega)]
          have : ((k * ti.toNat : Nat) : Int) ≤ ((song.length.toNat : Nat) : Int) := by
            push_cast
            rw [hcast_ti]
            rw [← hk]
            rw [hcast_len]
            exact hle
          exact_mod_cast this
        rw [hk]
        exact mul_le_mul_of_nonneg_right (by exact_mod_cast hkK) (by omega)

theorem make_event_list_time_ticks_witness :
    (∃ p ∈ make_event_list ⟨[], 150, []⟩ (some 100) true,
        p.1 = 0 ∧ p.2.time = true) ∧
    ((100 : Int) ∣ (150 : Int) →
      ∃ p ∈ make_event_list ⟨[], 150, []⟩ (some 100) true,
        p.1 = (150 : Int) ∧ p.2.time = true) ∧
    (¬ (100 : Int) ∣ (150 : Int) →
      (∀ p ∈ make_event_list ⟨[], 150, []⟩ (some 100) true,
        p.1 = (150 : Int) → p.2.time = false) ∧
      ∃ m : Int, (100 : Int) ∣ m ∧ 0 ≤ m ∧ m ≤ (150 : Int) ∧
        (150 : Int) < m + 100 ∧
        (∃ p ∈ make_event_list ⟨[], 150, []⟩ (some 100) true,
          p.1 = m ∧ p.2.time = true) ∧
        (∀ p ∈ make_event_list ⟨[], 150, []⟩ (some 100) true,
          p.2.time = true → p.1 ≤ m)) :=
  make_event_list_time_ticks ⟨[], 150, []⟩ 100 true (by decide) (by decide)

theorem seek_measure_follows_scan_witness :
    seek_measure beatTimeline 5 1 = (false, beatTimeline) :=
  (seek_measure_follows_scan beatTimeline 5 1).2 (by
    intro p hp m b n dn hb
    fin_cases hp <;> simp_all <;> omega)

end Midiplayer
